import Mathlib

/-!
Shallow embedding of the Stein variational gradient descent sampler from
`stein/samplers/abstract_stein_sampler.py` and
`stein/samplers/parallel_stein_sampler.py`, together with theorems about the
merge / shuffle protocol, the particle update, and sampler construction.

Matrices are row-major lists of rows, mirroring the two-dimensional numpy
arrays used by the code.  The particle codec (`convert_dictionary_to_array` /
`convert_array_to_dictionary`), the squared-exponential kernel and the concrete
local sampler live in repository modules that are not part of the supplied
sources; where they are needed they are modelled from the specification and
are marked as such in their doc comments.
-/

namespace Stein

/-- A numeric matrix, row-major: each inner list is one row. -/
abbrev Mat (α : Type) : Type := List (List α)

/-- Elementwise sum of two vectors, as numpy broadcasting addition produces on
two equal-length vectors. -/
def vecAdd {α : Type} [Add α] (u v : List α) : List α :=
  List.zipWith (· + ·) u v

/-- A vector scaled by a constant. -/
def vecSmul {α : Type} [Mul α] (c : α) (v : List α) : List α :=
  v.map (fun x => c * x)

/-- Number of columns of a matrix, read off its first row. -/
def colsOf {α : Type} (m : Mat α) : ℕ :=
  (m.headD []).length

/-- Elementwise matrix sum (numpy `+` on equal-shaped matrices). -/
def matAdd {α : Type} [Add α] (a b : Mat α) : Mat α :=
  List.zipWith vecAdd a b

/-- A matrix scaled elementwise by a constant (numpy `*=` with a scalar). -/
def matSmul {α : Type} [Mul α] (c : α) (m : Mat α) : Mat α :=
  m.map (vecSmul c)

/-- Matrix product: row `i` of `matMul a b` is `Σ_k a[i,k] • b[k,:]`,
which is numpy `a.dot(b)`. -/
def matMul {α : Type} [Mul α] [Add α] [Zero α] (a b : Mat α) : Mat α :=
  a.map (fun ar => (List.zipWith vecSmul ar b).foldr vecAdd (List.replicate (colsOf b) 0))

/-- Elementwise division of a matrix by a natural number (numpy `/ n`). -/
def matDiv {α : Type} [DivisionRing α] (m : Mat α) (n : ℕ) : Mat α :=
  m.map (fun r => r.map (fun x => x / (n : α)))

/-- The proposition that `m` is an `r × c` matrix: `r` rows, each of width `c`. -/
def IsMat {α : Type} (r c : ℕ) (m : Mat α) : Prop :=
  m.length = r ∧ ∀ row ∈ m, row.length = c

/-- Row `merge` on the master (`ParallelSteinSampler.merge`, master branch):
the master starts from its own flattened block and repeatedly `np.vstack`s the
blocks received from the followers, in arrival order. -/
def mergeMaster {α : Type} (own : Mat α) (arrivals : List (Mat α)) : Mat α :=
  own ++ arrivals.flatten

/-- Result of `ParallelSteinSampler.merge` as seen at a given rank: the master
(rank 0) returns the concatenated matrix, every follower falls through the
`else` branch after its `send` and returns `None`. -/
def mergeAtRank {α : Type} (rank : ℕ) (own : Mat α) (arrivals : List (Mat α)) :
    Option (Mat α) :=
  if rank = 0 then some (mergeMaster own arrivals) else none

/-- The `np.reshape(a, (W, p))` step of `shuffle`: cut a length-`W*p` list into
`W` consecutive chunks of length `p`. -/
def chunkList {α : Type} (p : ℕ) : ℕ → List α → List (List α)
  | 0, _ => []
  | w + 1, l => l.take p :: chunkList p w (l.drop p)

/-- Fancy indexing `m[idxs]`: the rows of `m` selected by the index list. -/
def rowsAt {α : Type} (m : Mat α) (idxs : List ℕ) : Mat α :=
  idxs.map (fun j => m.getD j [])

/-- One whole `ParallelSteinSampler.shuffle`, viewed on flat particle blocks:
`mats` are the per-worker flat particle matrices (master first), `arrivals` is
the order in which the followers' blocks reach the master during the merge,
and `a` is the permutation drawn by `np.random.permutation(n_particles)`.
Worker `i` ends up holding the rows of the merged matrix selected by the
`i`-th chunk of `a` (the master keeps chunk `0`, chunk `i` is sent to
worker `i`). -/
def shuffleSystem {α : Type} (w p : ℕ) (mats arrivals : List (Mat α))
    (a : List ℕ) : List (Mat α) :=
  (chunkList p w a).map (rowsAt (mergeMaster (mats.headD []) arrivals))

/-- Sum of the lengths of a family of equal-length lists. -/
theorem sum_map_length_const {α : Type} {p : ℕ} :
    ∀ {l : List (List α)}, (∀ m ∈ l, m.length = p) →
      (l.map List.length).sum = l.length * p := by
  intro l
  induction l with
  | nil => intro _; simp
  | cons x xs ih =>
      intro h
      have hx : x.length = p := h x (List.mem_cons_self x xs)
      have hxs := ih (fun m hm => h m (List.mem_cons_of_mem x hm))
      simp [hx, hxs, Nat.succ_mul, Nat.add_comm]

/-- Reading every position of a list via `getD` reproduces the list. -/
theorem map_getD_range {α : Type} (d : α) :
    ∀ (l : List α), (List.range l.length).map (fun i => l.getD i d) = l := by
  intro l
  induction l with
  | nil => simp
  | cons x xs ih =>
      have hr : List.range (xs.length + 1) = 0 :: (List.range xs.length).map Nat.succ :=
        List.range_succ_eq_map xs.length
      have hcomp : ((fun i => (x :: xs).getD i d) ∘ Nat.succ) = (fun i => xs.getD i d) := by
        funext i; rfl
      simp only [List.length_cons, hr, List.map_cons, List.map_map, hcomp, ih]
      rfl

theorem chunkList_length {α : Type} (p : ℕ) :
    ∀ (w : ℕ) (l : List α), (chunkList p w l).length = w := by
  intro w
  induction w with
  | zero => intro l; rfl
  | succ w ih => intro l; simp [chunkList, ih]

theorem chunkList_flatten {α : Type} (p : ℕ) :
    ∀ (w : ℕ) (l : List α), l.length = w * p → (chunkList p w l).flatten = l := by
  intro w
  induction w with
  | zero =>
      intro l hl
      simp only [Nat.zero_mul] at hl
      simp [chunkList, List.eq_nil_of_length_eq_zero hl]
  | succ w ih =>
      intro l hl
      have hdrop : (l.drop p).length = w * p := by
        simp [List.length_drop, hl, Nat.succ_mul, Nat.add_comm]
      simp [chunkList, ih (l.drop p) hdrop]

theorem chunkList_mem_length {α : Type} (p : ℕ) :
    ∀ (w : ℕ) (l : List α), l.length = w * p →
      ∀ c ∈ chunkList p w l, c.length = p := by
  intro w
  induction w with
  | zero => intro l _ c hc; simp [chunkList] at hc
  | succ w ih =>
      intro l hl c hc
      have hdrop : (l.drop p).length = w * p := by
        simp [List.length_drop, hl, Nat.succ_mul, Nat.add_comm]
      simp only [chunkList, List.mem_cons] at hc
      rcases hc with hc | hc
      · subst hc
        have : p ≤ l.length := by
          rw [hl, Nat.succ_mul]; exact Nat.le_add_left p (w * p)
        simp [List.length_take, Nat.min_eq_left this]
      · exact ih (l.drop p) hdrop c hc

/-- The merged matrix is the blocks of all workers, master's block first and
the followers' blocks in arrival order, so its row multiset is independent of
the arrival order. -/
theorem mergeMaster_perm {α : Type} (own : Mat α)
    {arrivals : List (Mat α)} (followers : List (Mat α))
    (h : arrivals.Perm followers) :
    (mergeMaster own arrivals).Perm (own ++ followers.flatten) :=
  List.Perm.append_left own h.flatten

/-- C2: for `W` workers each holding `p` particles, the master's merged matrix
has exactly `W * p` rows and its row multiset equals the union of all workers'
local rows, for every arrival order of the follower messages; every rank other
than the master returns nothing from the merge. -/
theorem merge_invariant {W p : ℕ} (own : Mat ℚ)
    (followers arrivals : List (Mat ℚ))
    (hW : 0 < W) (hown : own.length = p) (hf : followers.length = W - 1)
    (hfp : ∀ m ∈ followers, m.length = p) (harr : arrivals.Perm followers) :
    (mergeMaster own arrivals).length = W * p ∧
      (mergeMaster own arrivals).Perm (own ++ followers.flatten) ∧
      ∀ r : ℕ, r ≠ 0 → mergeAtRank r own arrivals = none := by
  refine ⟨?_, mergeMaster_perm own followers harr, ?_⟩
  · have hlen : arrivals.flatten.length = (W - 1) * p := by
      have hmap : (arrivals.map List.length).Perm (followers.map List.length) :=
        harr.map List.length
      have hsum : (arrivals.map List.length).sum = (followers.map List.length).sum :=
        hmap.sum_eq
      rw [List.length_flatten, hsum, sum_map_length_const hfp, hf]
    have : (mergeMaster own arrivals).length = p + (W - 1) * p := by
      simp [mergeMaster, hown, hlen]
    rw [this]
    have hW' : W - 1 + 1 = W := Nat.succ_pred_eq_of_pos hW
    calc p + (W - 1) * p = (W - 1 + 1) * p := by ring
      _ = W * p := by rw [hW']
  · intro r hr
    simp [mergeAtRank, hr]

/-- C2 witness: a concrete two-worker merge with one particle per worker. -/
theorem merge_invariant_witness :
    (mergeMaster [[(1 : ℚ)]] [[[2]]]).length = 2 * 1 ∧
      (mergeMaster [[(1 : ℚ)]] [[[2]]]).Perm ([[(1 : ℚ)]] ++ ([[[2]]] : List (Mat ℚ)).flatten) ∧
      ∀ r : ℕ, r ≠ 0 → mergeAtRank r [[(1 : ℚ)]] [[[2]]] = none :=
  merge_invariant [[(1 : ℚ)]] [[[2]]] [[[2]]] (by decide) (by decide) (by decide)
    (by decide) (by decide)

/-- C10: the master's own flattened block always occupies the first `p` rows
of the merged matrix, and the followers' blocks sit below it in arrival
order. -/
theorem merge_master_block_first {p : ℕ} (own : Mat ℚ)
    (arrivals : List (Mat ℚ)) (hown : own.length = p) :
    (mergeMaster own arrivals).take p = own ∧
      (mergeMaster own arrivals).drop p = arrivals.flatten := by
  subst hown
  exact ⟨List.take_left own arrivals.flatten, List.drop_left own arrivals.flatten⟩

/-- C10 witness: concrete master block of two rows and two follower blocks. -/
theorem merge_master_block_first_witness :
    (mergeMaster [[(1 : ℚ)], [2]] [[[3]], [[4]]]).take 2 = [[(1 : ℚ)], [2]] ∧
      (mergeMaster [[(1 : ℚ)], [2]] [[[3]], [[4]]]).drop 2 =
        ([[[3]], [[4]]] : List (Mat ℚ)).flatten :=
  merge_master_block_first [[(1 : ℚ)], [2]] [[[3]], [[4]]] (by decide)

/-- One named parameter slot of a particle set: the slot identifier, the
per-slot shape `S`, and the particle values as a matrix whose rows are the
per-particle flattened slot values (leading dimension = particle count,
row width = `S.prod`). -/
structure Slot (α : Type) where
  name : ℕ
  shape : List ℕ
  data : Mat α
deriving DecidableEq

/-- A particle set θ: a mapping from parameter slots to value arrays, in the
fixed slot order of the underlying dictionary. -/
abbrev ParamSet (α : Type) : Type := List (Slot α)

/-- Element count of one slot within a flattened per-particle vector. -/
def slotWidth {α : Type} (s : Slot α) : ℕ := s.shape.prod

/-- Total width `n_params` of a flattened per-particle parameter vector. -/
def sumWidths {α : Type} (θ : ParamSet α) : ℕ := (θ.map slotWidth).sum

/-- The slot identifiers and shapes of a particle set, in order. -/
def slotSig {α : Type} (θ : ParamSet α) : List (ℕ × List ℕ) :=
  θ.map (fun s => (s.name, s.shape))

/-- Modelled from the spec: the layout descriptor (access index) produced by
`convert_dictionary_to_array` (module `stein/utilities`, absent from the
supplied sources) — for each slot in fixed order, its identity, shape and
element count within the flattened per-particle vector. -/
def accessOf {α : Type} (θ : ParamSet α) : List (ℕ × List ℕ × ℕ) :=
  θ.map (fun s => (s.name, s.shape, slotWidth s))

/-- Leading dimension of a particle set (the particle count of its slots). -/
def nRows {α : Type} : ParamSet α → ℕ
  | [] => 0
  | s :: _ => s.data.length

/-- Modelled from the spec: the flattening half of the Particle Codec
(`convert_dictionary_to_array`, absent from the supplied sources) — row `i` of
the flat matrix is particle `i`'s slot values concatenated in slot order. -/
def encodeMat {α : Type} (θ : ParamSet α) : Mat α :=
  (List.range (nRows θ)).map (fun i => (θ.map (fun s => s.data.getD i [])).flatten)

/-- Modelled from the spec: the unflattening half of the Particle Codec
(`convert_array_to_dictionary`, absent from the supplied sources) — each slot
of the layout descriptor takes its recorded number of columns from the flat
matrix, in order. -/
def decode {α : Type} : List (ℕ × List ℕ × ℕ) → Mat α → ParamSet α
  | [], _ => []
  | e :: rest, flat =>
      ⟨e.1, e.2.1, flat.map (fun r => r.take e.2.2)⟩ ::
        decode rest (flat.map (fun r => r.drop e.2.2))

/-- Well-formedness of a particle set: every slot holds one row per particle
and each row has the slot's element count — the particle-set invariant. -/
def WF {α : Type} (n : ℕ) (θ : ParamSet α) : Prop :=
  ∀ s ∈ θ, s.data.length = n ∧ ∀ r ∈ s.data, r.length = slotWidth s

/-- One worker's local sampler (`AbstractSteinSampler` state): its particle
count, its particle set, and the Step Strategy's iteration counter
(`gd.n_iters`). -/
structure LocalSampler (α : Type) where
  n_particles : ℕ
  theta : ParamSet α
  iters : ℕ
deriving DecidableEq

/-- The error raised when the particle count is not divisible by the worker
count (`ValueError` in the code, ConfigurationError in the spec). -/
inductive ConfigErr where
  | configurationError
deriving DecidableEq

/-- The state of one `ParallelSteinSampler` process.  `thetaAttr` models the
base class attribute `self.theta`: `ParallelSteinSampler.__init__` never calls
the base initializer and never assigns it, so it is absent (`none`). -/
structure PState (α : Type) where
  n_particles : ℕ
  n_shuffle : ℕ
  n_workers : ℕ
  particles_per_worker : ℕ
  rank : ℕ
  sampler : LocalSampler α
  thetaAttr : Option (ParamSet α)
deriving DecidableEq

/-- Python slicing `{v: x[idx:idx+p] for v, x in theta.items()}`: every slot
keeps only `len` contiguous particle rows starting at `lo`. -/
def sliceTheta {α : Type} (θ : ParamSet α) (lo len : ℕ) : ParamSet α :=
  θ.map (fun s => ⟨s.name, s.shape, (s.data.drop lo).take len⟩)

/-- Fresh particle initialization in `AbstractSteinSampler.__init__`: one slot
per model variable, drawn by the external sampling primitive `randn`
(modelling `np.random.normal(size=[n] + shape)`). -/
def freshTheta {α : Type} (model_vars : List (ℕ × List ℕ))
    (randn : ℕ → List ℕ → Mat α) (n : ℕ) : ParamSet α :=
  model_vars.map (fun v => ⟨v.1, v.2, randn n v.2⟩)

/-- Construction of the distributed sampler
(`ParallelSteinSampler.__init__`): `particles_per_worker = N / W` by integer
division; the divisibility check raises only when the process additionally has
rank `0`; otherwise the worker builds its local sampler either freshly or by
contiguous slicing of the supplied global particle set at `rank * p`. -/
def parallelInit {α : Type} (n_particles n_workers rank n_shuffle : ℕ)
    (model_vars : List (ℕ × List ℕ)) (randn : ℕ → List ℕ → Mat α)
    (theta0 : Option (ParamSet α)) : Except ConfigErr (PState α) :=
  let p := n_particles / n_workers
  if n_particles % n_workers ≠ 0 ∧ rank = 0 then
    Except.error ConfigErr.configurationError
  else
    Except.ok
      { n_particles := n_particles
        n_shuffle := n_shuffle
        n_workers := n_workers
        particles_per_worker := p
        rank := rank
        sampler :=
          match theta0 with
          | none => ⟨p, freshTheta model_vars randn p, 0⟩
          | some θ => ⟨p, sliceTheta θ (rank * p) p, 0⟩
        thetaAttr := none }

/-- Modelled from the spec: `SteinSampler.train_on_batch` (module
`stein_sampler.py`, absent from the supplied sources) evaluates the gradient
oracle once per particle and calls `update_particles`, which advances the Step
Strategy's iteration counter by exactly one; the induced particle-set update
is abstracted as `upd`. -/
def localTrainOnBatch {α : Type} (upd : ParamSet α → ParamSet α)
    (s : LocalSampler α) : LocalSampler α :=
  ⟨s.n_particles, upd s.theta, s.iters + 1⟩

/-- `ParallelSteinSampler.train_on_batch`: delegate to the local sampler, then
decide whether to shuffle by testing `gd.n_iters % n_shuffle == 0`.  The
returned boolean tells whether the shuffle (the only cross-worker
communication in this call) is executed. -/
def parallelTrainOnBatch {α : Type} (upd : ParamSet α → ParamSet α)
    (st : PState α) : PState α × Bool :=
  let s := localTrainOnBatch upd st.sampler
  ({ st with sampler := s }, s.iters % st.n_shuffle == 0)

/-- Python error kinds hit by `function_posterior_distribution`: reading the
never-assigned attribute `self.theta` raises `AttributeError`; the comprehension
`{v: x[j] for v, x in ...}` references the unbound name `j` and would raise
`NameError`. -/
inductive PyErr where
  | attributeError
  | nameError
deriving DecidableEq

/-- `ParallelSteinSampler.function_posterior_distribution`, modelled faithfully
including its defects: the merge result is bound to a local (`theta`) that the
loop never reads; on the master, the first loop iteration evaluates
`self.theta.items()` — but `self.theta` was never assigned, so the call raises
`AttributeError` (and even if it existed, `x[j]` would raise `NameError`);
with zero particles the loop body never runs and the empty vector is returned;
followers return `None`. -/
def function_posterior_distribution {α : Type} (st : PState α)
    (arrivals : List (Mat α)) : Except PyErr (Option (List α)) :=
  let _theta := mergeAtRank st.rank (encodeMat st.sampler.theta) arrivals
  if st.rank = 0 then
    if st.n_particles = 0 then Except.ok (some [])
    else
      match st.thetaAttr with
      | none => Except.error PyErr.attributeError
      | some _ => Except.error PyErr.nameError
  else Except.ok none

/-- C1: a shuffle preserves the multiset of particle parameter vectors across
the whole system — for any arrival order of the follower blocks during the
merge and any permutation drawn by the master — and each worker holds exactly
`p` particles afterwards; only the assignment of rows to workers changes. -/
theorem shuffle_invariant {W p : ℕ} (mats arrivals : List (Mat ℚ)) (a : List ℕ)
    (hW : 0 < W) (hlen : mats.length = W) (hp : ∀ m ∈ mats, m.length = p)
    (harr : arrivals.Perm mats.tail) (ha : a.Perm (List.range (W * p))) :
    ((shuffleSystem W p mats arrivals a).flatten).Perm mats.flatten ∧
      (shuffleSystem W p mats arrivals a).length = W ∧
      ∀ m ∈ shuffleSystem W p mats arrivals a, m.length = p := by
  rcases mats with _ | ⟨m0, rest⟩
  · exact absurd (hlen ▸ hW) (by simp)
  have hmerged : (mergeMaster m0 arrivals).Perm ((m0 :: rest) : List (Mat ℚ)).flatten := by
    have h1 := mergeMaster_perm m0 ((m0 :: rest : List (Mat ℚ)).tail) harr
    simpa [List.flatten_cons] using h1
  have hflatlen : ((m0 :: rest) : List (Mat ℚ)).flatten.length = W * p := by
    rw [List.length_flatten, sum_map_length_const hp, hlen]
  have hmlen : (mergeMaster m0 arrivals).length = W * p := by
    rw [hmerged.length_eq, hflatlen]
  have halen : a.length = W * p := by
    simpa using ha.length_eq
  have hhead : ((m0 :: rest) : List (Mat ℚ)).headD [] = m0 := rfl
  refine ⟨?_, ?_, ?_⟩
  · have hflat : (shuffleSystem W p (m0 :: rest) arrivals a).flatten =
        a.map (fun j => (mergeMaster m0 arrivals).getD j []) := by
      show ((chunkList p W a).map
        (rowsAt (mergeMaster ((m0 :: rest : List (Mat ℚ)).headD []) arrivals))).flatten = _
      rw [hhead]
      have : (chunkList p W a).map (rowsAt (mergeMaster m0 arrivals)) =
          (chunkList p W a).map
            (List.map (fun j => (mergeMaster m0 arrivals).getD j [])) := rfl
      rw [this, ← List.map_flatten, chunkList_flatten p W a halen]
    rw [hflat]
    have h2 : (a.map (fun j => (mergeMaster m0 arrivals).getD j [])).Perm
        ((List.range (W * p)).map (fun j => (mergeMaster m0 arrivals).getD j [])) :=
      ha.map _
    have h3 : (List.range (W * p)).map (fun j => (mergeMaster m0 arrivals).getD j []) =
        mergeMaster m0 arrivals := by
      have := map_getD_range ([] : List ℚ) (mergeMaster m0 arrivals)
      rwa [hmlen] at this
    have h3' : ((List.range (W * p)).map
        (fun j => (mergeMaster m0 arrivals).getD j [])).Perm (mergeMaster m0 arrivals) := by
      rw [h3]
    exact (h2.trans h3').trans hmerged
  · show ((chunkList p W a).map _).length = W
    rw [List.length_map, chunkList_length]
  · intro m hm
    rcases List.mem_map.1 hm with ⟨c, hc, rfl⟩
    show (List.map _ c).length = p
    rw [List.length_map]
    exact chunkList_mem_length p W a halen c hc

/-- C1 witness: two workers with one one-dimensional particle each, shuffled
through the permutation that swaps the two particles. -/
theorem shuffle_invariant_witness :
    ((shuffleSystem 2 1 [[[(1 : ℚ)]], [[2]]] [[[2]]] [1, 0]).flatten).Perm
        ([[[(1 : ℚ)]], [[2]]] : List (Mat ℚ)).flatten ∧
      (shuffleSystem 2 1 [[[(1 : ℚ)]], [[2]]] [[[2]]] [1, 0]).length = 2 ∧
      ∀ m ∈ shuffleSystem 2 1 [[[(1 : ℚ)]], [[2]]] [[[2]]] [1, 0], m.length = 1 :=
  shuffle_invariant [[[(1 : ℚ)]], [[2]]] [[[2]]] [1, 0] (by decide) (by decide)
    (by decide) (by decide) (by decide)

/-- A shape-respecting stand-in for `np.random.normal`, used by concrete
witnesses: an `n × shape.prod` matrix of zeros. -/
def zerosRandn (n : ℕ) (sh : List ℕ) : Mat ℚ :=
  List.replicate n (List.replicate sh.prod 0)

/-- A one-variable model layout used by concrete witnesses. -/
def oneVarModel : List (ℕ × List ℕ) := [(0, [1])]

/-- A concrete coordinator state for the `train_on_batch` witness: shuffle
period 2, one prior iteration. -/
def wState8 : PState ℚ :=
  ⟨2, 2, 2, 1, 0, ⟨1, [⟨0, [1], [[0]]⟩], 1⟩, none⟩

/-- The coordinator state produced by `parallelInit 2 2 0 1` with the witness
model: two global particles over two workers, so one local particle, and the
`self.theta` attribute absent. -/
def fpdState : PState ℚ :=
  ⟨2, 1, 2, 1, 0, ⟨1, [⟨0, [1], [[0]]⟩], 0⟩, none⟩

/-- C5 counterexample: with `N = 3`, `W = 2` (so `N mod W ≠ 0`) construction
on rank `1` does NOT fail — the divisibility error is raised only when
`rank = 0`, so the claim "fails on every worker rank" is false. -/
theorem construction_error_counterexample :
    (parallelInit 3 2 1 1 oneVarModel zerosRandn none).isOk = true := by
  rfl

/-- C5 (amended): when `N mod W ≠ 0`, construction fails deterministically
with the configuration error on the coordinator (rank `0`), while every other
rank raises nothing and constructs its local sampler. -/
theorem construction_error_coordinator_only (N W r ns : ℕ)
    (mv : List (ℕ × List ℕ)) (randn : ℕ → List ℕ → Mat ℚ)
    (theta0 : Option (ParamSet ℚ)) (h : N % W ≠ 0) :
    parallelInit N W 0 ns mv randn theta0 =
        Except.error ConfigErr.configurationError ∧
      (r ≠ 0 → (parallelInit N W r ns mv randn theta0).isOk = true) := by
  constructor
  · simp [parallelInit, h]
  · intro hr
    have hcond : ¬(N % W ≠ 0 ∧ r = 0) := fun hc => hr hc.2
    simp only [parallelInit]
    rw [if_neg hcond]
    cases theta0 <;> rfl

/-- C5 witness: `N = 3`, `W = 2` — the coordinator raises, rank `1` does
not. -/
theorem construction_error_coordinator_only_witness :
    parallelInit 3 2 0 1 oneVarModel zerosRandn none =
        Except.error ConfigErr.configurationError ∧
      (1 ≠ 0 → (parallelInit 3 2 1 1 oneVarModel zerosRandn none).isOk = true) :=
  construction_error_coordinator_only 3 2 1 1 oneVarModel zerosRandn none (by decide)

/-- C7: under divisibility, construction succeeds on every rank; with a
supplied global particle set, rank `r` owns exactly the contiguous rows
`[r * (N / W), (r + 1) * (N / W))` of every slot, each slot then holding
`N / W` rows; without a supplied set, the local sampler owns `N / W` freshly
drawn particles. -/
theorem construction_partition {N W r ns : ℕ} (mv : List (ℕ × List ℕ))
    (randn : ℕ → List ℕ → Mat ℚ) (θ : ParamSet ℚ)
    (hdvd : W ∣ N) (hr : r < W)
    (hθ : ∀ s ∈ θ, s.data.length = N)
    (hrand : ∀ q sh, (randn q sh).length = q) :
    (parallelInit N W r ns mv randn (some θ) =
        Except.ok ⟨N, ns, W, N / W, r,
          ⟨N / W, sliceTheta θ (r * (N / W)) (N / W), 0⟩, none⟩) ∧
      (∀ s ∈ sliceTheta θ (r * (N / W)) (N / W), s.data.length = N / W) ∧
      (parallelInit N W r ns mv randn none =
        Except.ok ⟨N, ns, W, N / W, r,
          ⟨N / W, freshTheta mv randn (N / W), 0⟩, none⟩) ∧
      ∀ s ∈ freshTheta mv randn (N / W), s.data.length = N / W := by
  have hmod : N % W = 0 := Nat.mod_eq_zero_of_dvd hdvd
  have hcond : ¬(N % W ≠ 0 ∧ r = 0) := fun hc => hc.1 hmod
  refine ⟨?_, ?_, ?_, ?_⟩
  · simp [parallelInit, if_neg hcond]
  · intro s hs
    rcases List.mem_map.1 hs with ⟨x, hx, rfl⟩
    have hxN : x.data.length = N := hθ x hx
    have hle : N / W + r * (N / W) ≤ N := by
      have h1 : (r + 1) * (N / W) ≤ W * (N / W) :=
        Nat.mul_le_mul_right (N / W) hr
      have h2 : W * (N / W) = N := Nat.mul_div_cancel' hdvd
      calc N / W + r * (N / W) = (r + 1) * (N / W) := by ring
        _ ≤ W * (N / W) := h1
        _ = N := h2
    show ((x.data.drop (r * (N / W))).take (N / W)).length = N / W
    rw [List.length_take, List.length_drop, hxN]
    exact Nat.min_eq_left (Nat.le_sub_of_add_le hle)
  · simp [parallelInit, if_neg hcond]
  · intro s hs
    rcases List.mem_map.1 hs with ⟨v, _, rfl⟩
    exact hrand (N / W) v.2

/-- C7 witness: `N = 6`, `W = 2` — each of the two workers ends up with a
local sampler owning exactly 3 particles, and with a supplied particle set
rank 0 owns rows 0–2 of it. -/
theorem construction_partition_witness :
    (parallelInit 6 2 0 1 oneVarModel zerosRandn
          (some [⟨0, [1], [[0], [1], [2], [3], [4], [5]]⟩]) =
        Except.ok ⟨6, 1, 2, 6 / 2, 0,
          ⟨6 / 2, sliceTheta [⟨0, [1], [[0], [1], [2], [3], [4], [5]]⟩]
            (0 * (6 / 2)) (6 / 2), 0⟩, none⟩) ∧
      (∀ s ∈ sliceTheta [⟨0, [1], [[(0 : ℚ)], [1], [2], [3], [4], [5]]⟩]
          (0 * (6 / 2)) (6 / 2), s.data.length = 6 / 2) ∧
      (parallelInit 6 2 0 1 oneVarModel zerosRandn none =
        Except.ok ⟨6, 1, 2, 6 / 2, 0,
          ⟨6 / 2, freshTheta oneVarModel zerosRandn (6 / 2), 0⟩, none⟩) ∧
      ∀ s ∈ freshTheta oneVarModel zerosRandn (6 / 2), s.data.length = 6 / 2 :=
  construction_partition oneVarModel zerosRandn
    [⟨0, [1], [[0], [1], [2], [3], [4], [5]]⟩] (by decide) (by decide)
    (by decide) (fun q sh => List.length_replicate q (List.replicate sh.prod 0))

/-- C8: every call of the distributed `train_on_batch` delegates to the local
sampler's `train_on_batch` (advancing the iteration counter by one), and the
shuffle is executed afterwards if and only if the Step Strategy's iteration
counter is a multiple of the shuffle period `n_shuffle`; when the test fails
the call is the purely local delegate, with no cross-worker communication. -/
theorem train_on_batch_schedule (upd : ParamSet ℚ → ParamSet ℚ)
    (st : PState ℚ) (_h : 0 < st.n_shuffle) :
    (parallelTrainOnBatch upd st).1.sampler = localTrainOnBatch upd st.sampler ∧
      (parallelTrainOnBatch upd st).1.sampler.iters = st.sampler.iters + 1 ∧
      ((parallelTrainOnBatch upd st).2 = true ↔
        st.n_shuffle ∣ (st.sampler.iters + 1)) := by
  refine ⟨rfl, rfl, ?_⟩
  show ((st.sampler.iters + 1) % st.n_shuffle == 0) = true ↔ _
  rw [beq_iff_eq]
  exact Nat.dvd_iff_mod_eq_zero.symm

/-- C8 witness: a concrete state with shuffle period 2 and one prior
iteration — the post-call counter is 2, so the shuffle fires. -/
theorem train_on_batch_schedule_witness :
    (parallelTrainOnBatch id wState8).1.sampler = localTrainOnBatch id wState8.sampler ∧
      (parallelTrainOnBatch id wState8).1.sampler.iters = wState8.sampler.iters + 1 ∧
      ((parallelTrainOnBatch id wState8).2 = true ↔ wState8.n_shuffle ∣ (wState8.sampler.iters + 1)) :=
  train_on_batch_schedule id wState8 (by decide)

/-- C6: the code of `function_posterior_distribution` cannot deliver the
specified behaviour — on a freshly constructed two-worker sampler, the
coordinator's call fails with `AttributeError` because `self.theta` was never
assigned (instead of evaluating the function once per merged particle and
returning a length-`N` vector). -/
theorem fpd_attribute_error :
    parallelInit 2 2 0 1 oneVarModel zerosRandn none = Except.ok fpdState ∧
      function_posterior_distribution fpdState [[[(5 : ℚ)]]] =
        Except.error PyErr.attributeError :=
  ⟨rfl, rfl⟩

/-- Members of a `zipWith` come from members of the two input lists. -/
theorem mem_zipWith_imp {α β γ : Type} {f : α → β → γ} :
    ∀ {l1 : List α} {l2 : List β} {c : γ}, c ∈ List.zipWith f l1 l2 →
      ∃ a b, a ∈ l1 ∧ b ∈ l2 ∧ c = f a b := by
  intro l1
  induction l1 with
  | nil => intro l2 c hc; simp at hc
  | cons a l1 ih =>
      intro l2 c hc
      cases l2 with
      | nil => simp at hc
      | cons b l2 =>
          simp only [List.zipWith_cons_cons, List.mem_cons] at hc
          rcases hc with hc | hc
          · exact ⟨a, b, List.mem_cons_self a l1, List.mem_cons_self b l2, hc⟩
          · rcases ih hc with ⟨x, y, hx, hy, hxy⟩
            exact ⟨x, y, List.mem_cons_of_mem a hx, List.mem_cons_of_mem b hy, hxy⟩

theorem vecAdd_length {α : Type} [Add α] (u v : List α) :
    (vecAdd u v).length = min u.length v.length := by
  simp [vecAdd]

theorem vecSmul_length {α : Type} [Mul α] (c : α) (v : List α) :
    (vecSmul c v).length = v.length := by
  simp [vecSmul]

theorem matAdd_isMat {α : Type} [Add α] {r c : ℕ} {a b : Mat α}
    (ha : IsMat r c a) (hb : IsMat r c b) : IsMat r c (matAdd a b) := by
  constructor
  · simp [matAdd, ha.1, hb.1]
  · intro row hrow
    rcases mem_zipWith_imp hrow with ⟨u, v, hu, hv, rfl⟩
    rw [vecAdd_length, ha.2 u hu, hb.2 v hv, Nat.min_self]

theorem matSmul_isMat {α : Type} [Mul α] {r c : ℕ} (x : α) {m : Mat α}
    (hm : IsMat r c m) : IsMat r c (matSmul x m) := by
  constructor
  · simp [matSmul, hm.1]
  · intro row hrow
    rcases List.mem_map.1 hrow with ⟨v, hv, rfl⟩
    rw [vecSmul_length, hm.2 v hv]

theorem matDiv_isMat {α : Type} [DivisionRing α] {r c : ℕ} {m : Mat α} (n : ℕ)
    (hm : IsMat r c m) : IsMat r c (matDiv m n) := by
  constructor
  · simp [matDiv, hm.1]
  · intro row hrow
    rcases List.mem_map.1 hrow with ⟨v, hv, rfl⟩
    simp [hm.2 v hv]

/-- A fold of `vecAdd` over equal-width vectors keeps the width. -/
theorem foldr_vecAdd_length {α : Type} [Add α] {c : ℕ} (base : List α)
    (hbase : base.length = c) :
    ∀ (l : List (List α)), (∀ v ∈ l, v.length = c) →
      (l.foldr vecAdd base).length = c := by
  intro l
  induction l with
  | nil => intro _; simpa using hbase
  | cons v l ih =>
      intro h
      have hv : v.length = c := h v (List.mem_cons_self v l)
      have hl := ih (fun u hu => h u (List.mem_cons_of_mem v hu))
      simp [List.foldr_cons, vecAdd_length, hv, hl]

theorem matMul_isMat {α : Type} [Mul α] [Add α] [Zero α] {n c : ℕ}
    {a b : Mat α} (ha : IsMat n n a) (hb : IsMat n c b) :
    IsMat n c (matMul a b) := by
  rcases Nat.eq_zero_or_pos n with hn | hn
  · subst hn
    have : a = [] := List.eq_nil_of_length_eq_zero ha.1
    subst this
    exact ⟨rfl, by intro row hrow; simp [matMul] at hrow⟩
  · have hcols : colsOf b = c := by
      rcases b with _ | ⟨r0, brest⟩
      · exact absurd hb.1.symm (Nat.pos_iff_ne_zero.1 hn)
      · exact hb.2 r0 (List.mem_cons_self r0 brest)
    constructor
    · simp [matMul, ha.1]
    · intro row hrow
      rcases List.mem_map.1 hrow with ⟨ar, _, rfl⟩
      refine foldr_vecAdd_length _ (by simp [hcols]) _ ?_
      intro v hv
      rcases mem_zipWith_imp hv with ⟨x, brow, _, hbrow, rfl⟩
      rw [vecSmul_length, hb.2 brow hbrow]

/-- Modelled from the spec: the interface contract of
`SquaredExponentialKernel.kernel_and_grad` (module `stein/kernels`, absent
from the supplied sources) — on an `n × d` particle matrix it returns the
`n × n` kernel matrix `K` and the `n × d` repulsion gradient `dK`. -/
def KernelShapes (kg : Mat ℝ → Mat ℝ × Mat ℝ) : Prop :=
  ∀ (m : Mat ℝ) (n d : ℕ), IsMat n d m → IsMat n n (kg m).1 ∧ IsMat n d (kg m).2

/-- `AbstractSteinSampler.compute_phi`: read `n_particles` off the gradient
matrix shape, obtain `K, dK` from the kernel on the particle matrix, and
return `(K.dot(grads) + dK) / n_particles`.  The kernel object is the
constructor-injected `self.kernel`, passed here as the function `kg`. -/
def compute_phi {α : Type} [DivisionRing α] (kg : Mat α → Mat α × Mat α)
    (theta_array grads_array : Mat α) : Mat α :=
  let n := grads_array.length
  let kd := kg theta_array
  matDiv (matAdd (matMul kd.1 grads_array) kd.2) n

/-- Shape of `compute_phi` under the kernel interface contract: the output is
an `n × d` matrix whenever the particle and gradient matrices are. -/
theorem compute_phi_isMat {kg : Mat ℝ → Mat ℝ × Mat ℝ} {n d : ℕ}
    {theta_array grads_array : Mat ℝ} (hk : KernelShapes kg)
    (hθ : IsMat n d theta_array) (hg : IsMat n d grads_array) :
    IsMat n d (compute_phi kg theta_array grads_array) := by
  obtain ⟨hK, hdK⟩ := hk theta_array n d hθ
  exact matDiv_isMat _ (matAdd_isMat (matMul_isMat hK hg) hdK)

/-- C3: `compute_phi` returns exactly `(K.dot(grads) + dK) / n_particles`
with `(K, dK) = kernel_and_grad(flatθ)`, and its shape equals the gradient
matrix shape whenever particle and gradient matrices share an
`n_particles × n_params` shape. -/
theorem compute_phi_spec (kg : Mat ℝ → Mat ℝ × Mat ℝ) {n d : ℕ}
    (theta_array grads_array : Mat ℝ) (hk : KernelShapes kg)
    (hθ : IsMat n d theta_array) (hg : IsMat n d grads_array) :
    compute_phi kg theta_array grads_array =
        matDiv (matAdd (matMul (kg theta_array).1 grads_array)
          (kg theta_array).2) grads_array.length ∧
      IsMat n d (compute_phi kg theta_array grads_array) :=
  ⟨rfl, compute_phi_isMat hk hθ hg⟩

/-- A kernel stand-in with the contractual shapes, for concrete witnesses:
`K` is the all-ones `n × n` matrix and `dK` the zero matrix of the input's
shape. -/
def onesKernel (m : Mat ℝ) : Mat ℝ × Mat ℝ :=
  (m.map (fun _ => m.map (fun _ => 1)), m.map (fun r => r.map (fun _ => 0)))

theorem onesKernel_shapes : KernelShapes onesKernel := by
  intro m n d hm
  refine ⟨⟨by simp [onesKernel, hm.1], ?_⟩, ⟨by simp [onesKernel, hm.1], ?_⟩⟩
  · intro row hrow
    rcases List.mem_map.1 hrow with ⟨_, _, rfl⟩
    simp [hm.1]
  · intro row hrow
    rcases List.mem_map.1 hrow with ⟨r, hr, rfl⟩
    simp [hm.2 r hr]

/-- C3 witness: one particle in one dimension, with the witness kernel. -/
theorem compute_phi_spec_witness :
    compute_phi onesKernel [[(0 : ℝ)]] [[2]] =
        matDiv (matAdd (matMul (onesKernel [[(0 : ℝ)]]).1 [[2]])
          (onesKernel [[(0 : ℝ)]]).2) ([[(2 : ℝ)]] : Mat ℝ).length ∧
      IsMat 1 1 (compute_phi onesKernel [[(0 : ℝ)]] [[2]]) :=
  compute_phi_spec onesKernel [[(0 : ℝ)]] [[2]] onesKernel_shapes
    (by constructor <;> simp) (by constructor <;> simp)

/-- Sum of squares of one row. -/
def rowSq (r : List ℝ) : ℝ := (r.map (fun x => x * x)).sum

/-- Sum of squares of all entries of a matrix. -/
def sumSq (m : Mat ℝ) : ℝ := (m.map rowSq).sum

/-- The Euclidean (Frobenius) norm `np.linalg.norm` of a matrix. -/
noncomputable def frobNorm (m : Mat ℝ) : ℝ := Real.sqrt (sumSq m)

/-- The scale factor `10. / max(10., np.linalg.norm(phi))` applied in
`update_particles`. -/
noncomputable def clipScale (x : ℝ) : ℝ := 10 / max 10 x

/-- `AbstractSteinSampler.update_particles`: flatten θ, compute `phi`, rescale
it by `10 / max(10, ‖phi‖)`, add the Step Strategy's increment on the rescaled
`phi` to the flat matrix, and decode back through the saved layout
descriptor.  The Step Strategy's `update` is the injected function `gd`. -/
noncomputable def update_particles (kg : Mat ℝ → Mat ℝ × Mat ℝ)
    (gd : Mat ℝ → Mat ℝ) (θ : ParamSet ℝ) (grads_array : Mat ℝ) : ParamSet ℝ :=
  let theta_array := encodeMat θ
  let access := accessOf θ
  let phi := compute_phi kg theta_array grads_array
  let phic := matSmul (clipScale (frobNorm phi)) phi
  decode access (matAdd theta_array (gd phic))

theorem rowSq_nonneg (r : List ℝ) : 0 ≤ rowSq r :=
  List.sum_nonneg (by
    intro x hx
    rcases List.mem_map.1 hx with ⟨y, _, rfl⟩
    exact mul_self_nonneg y)

theorem sumSq_nonneg (m : Mat ℝ) : 0 ≤ sumSq m :=
  List.sum_nonneg (by
    intro x hx
    rcases List.mem_map.1 hx with ⟨r, _, rfl⟩
    exact rowSq_nonneg r)

theorem sumSq_smul (c : ℝ) (m : Mat ℝ) :
    sumSq (matSmul c m) = c * c * sumSq m := by
  unfold sumSq matSmul
  rw [List.map_map]
  have hrow : (rowSq ∘ vecSmul c) = fun r => c * c * rowSq r := by
    funext r
    show rowSq (vecSmul c r) = c * c * rowSq r
    unfold rowSq vecSmul
    rw [List.map_map]
    have : ((fun x => x * x) ∘ fun x => c * x) = fun x => c * c * (x * x) := by
      funext x; simp only [Function.comp_apply]; ring
    rw [this, List.sum_map_mul_left]
  rw [hrow, List.sum_map_mul_left]

theorem frobNorm_nonneg (m : Mat ℝ) : 0 ≤ frobNorm m :=
  Real.sqrt_nonneg _

theorem frobNorm_smul (c : ℝ) (m : Mat ℝ) :
    frobNorm (matSmul c m) = |c| * frobNorm m := by
  unfold frobNorm
  rw [sumSq_smul, Real.sqrt_mul (mul_self_nonneg c), Real.sqrt_mul_self_eq_abs]

/-- The clipped perturbation has Euclidean norm at most 10, for every input. -/
theorem clipped_norm_le (phi : Mat ℝ) :
    frobNorm (matSmul (clipScale (frobNorm phi)) phi) ≤ 10 := by
  set x := frobNorm phi with hxdef
  have hx : 0 ≤ x := frobNorm_nonneg phi
  have hM : (0 : ℝ) < max 10 x := lt_of_lt_of_le (by norm_num) (le_max_left _ _)
  have hscale : 0 ≤ clipScale x := div_nonneg (by norm_num) hM.le
  rw [frobNorm_smul, ← hxdef, abs_of_nonneg hscale]
  unfold clipScale
  rw [div_mul_eq_mul_div, div_le_iff₀ hM]
  have h1 : x ≤ max 10 x := le_max_right _ _
  nlinarith

/-- The code's scale factor `10 / max(10, x)` agrees with `min(1, 10 / x)` on
positive norms. -/
theorem clipScale_eq_min {x : ℝ} (hx : 0 < x) :
    clipScale x = min 1 (10 / x) := by
  rcases le_total x 10 with h | h
  · rw [clipScale, max_eq_left h, min_eq_left]
    · norm_num
    · rw [le_div_iff₀ hx]; linarith
  · rw [clipScale, max_eq_right h, min_eq_right]
    exact (div_le_one (lt_of_lt_of_le (by norm_num) h)).2 h

/-- C4: the perturbation handed to the Step Strategy inside
`update_particles` is the computed `phi` rescaled by `10 / max(10, ‖phi‖)`;
that rescaled perturbation has Euclidean norm at most 10 for every input
gradient matrix, and on positive norms the code's scale factor equals
`min(1, 10 / ‖phi‖)`. -/
theorem update_particles_clip (kg : Mat ℝ → Mat ℝ × Mat ℝ)
    (gd : Mat ℝ → Mat ℝ) (θ : ParamSet ℝ) (grads_array : Mat ℝ)
    (phi : Mat ℝ) (hphi : phi = compute_phi kg (encodeMat θ) grads_array) :
    update_particles kg gd θ grads_array =
        decode (accessOf θ)
          (matAdd (encodeMat θ) (gd (matSmul (clipScale (frobNorm phi)) phi))) ∧
      frobNorm (matSmul (clipScale (frobNorm phi)) phi) ≤ 10 ∧
      (0 < frobNorm phi → clipScale (frobNorm phi) = min 1 (10 / frobNorm phi)) := by
  subst hphi
  exact ⟨rfl, clipped_norm_le _, fun h => clipScale_eq_min h⟩

/-- Witness particle set: one slot, one particle, one parameter. -/
def thetaW : ParamSet ℝ := [⟨0, [1], [[0]]⟩]

/-- Witness gradient matrix. -/
def gradsW : Mat ℝ := [[4]]

/-- The witness perturbation computed by `compute_phi` on the witness data. -/
noncomputable def phiW : Mat ℝ := compute_phi onesKernel (encodeMat thetaW) gradsW

theorem sumSq_phiW : sumSq phiW = 16 := by
  have h : sumSq phiW =
      ((1 * 4 + 0 + 0) / ((1 : ℕ) : ℝ)) * ((1 * 4 + 0 + 0) / ((1 : ℕ) : ℝ)) + 0 + 0 := rfl
  rw [h]
  push_cast
  norm_num

theorem frobNorm_phiW : frobNorm phiW = 4 := by
  rw [frobNorm, sumSq_phiW, show (16 : ℝ) = 4 * 4 by norm_num,
    Real.sqrt_mul_self (by norm_num : (0 : ℝ) ≤ 4)]

/-- C4 witness: on the witness data the perturbation is `[[4]]`, of norm 4;
the clipped perturbation obeys the bound and the scale-factor identity. -/
theorem update_particles_clip_witness :
    update_particles onesKernel id thetaW gradsW =
        decode (accessOf thetaW)
          (matAdd (encodeMat thetaW)
            (id (matSmul (clipScale (frobNorm phiW)) phiW))) ∧
      frobNorm (matSmul (clipScale (frobNorm phiW)) phiW) ≤ 10 ∧
      clipScale (frobNorm phiW) = min 1 (10 / frobNorm phiW) := by
  have h := update_particles_clip onesKernel id thetaW gradsW phiW rfl
  have hpos : 0 < frobNorm phiW := by rw [frobNorm_phiW]; norm_num
  exact ⟨h.1, h.2.1, h.2.2 hpos⟩

/-- Modelled from the spec: the Step Strategy contract — `update` returns an
increment of the same shape as its input direction. -/
def StepShapes (gd : Mat ℝ → Mat ℝ) : Prop :=
  ∀ (r c : ℕ) (m : Mat ℝ), IsMat r c m → IsMat r c (gd m)

/-- The final step of `shuffle` on any single worker: the block of rows it
keeps or receives is decoded through the layout descriptor saved from the
worker's own previous particle set
(`self.sampler.theta = convert_array_to_dictionary(theta_array, access)`). -/
def shuffleWorker {α : Type} (θold : ParamSet α) (block : Mat α) : ParamSet α :=
  decode (accessOf θold) block

theorem decode_sig {α : Type} :
    ∀ (acc : List (ℕ × List ℕ × ℕ)) (flat : Mat α),
      slotSig (decode acc flat) = acc.map (fun e => (e.1, e.2.1)) := by
  intro acc
  induction acc with
  | nil => intro flat; rfl
  | cons e rest ih =>
      intro flat
      simp only [decode, slotSig, List.map_cons]
      exact congrArg ((e.1, e.2.1) :: ·) (ih _)

theorem decode_data_length {α : Type} :
    ∀ (acc : List (ℕ × List ℕ × ℕ)) (flat : Mat α),
      ∀ s ∈ decode acc flat, s.data.length = flat.length := by
  intro acc
  induction acc with
  | nil => intro flat s hs; simp [decode] at hs
  | cons e rest ih =>
      intro flat s hs
      simp only [decode, List.mem_cons] at hs
      rcases hs with hs | hs
      · subst hs; simp
      · rw [ih _ s hs, List.length_map]

theorem decode_row_widths {α : Type} :
    ∀ (acc : List (ℕ × List ℕ × ℕ)) (flat : Mat α),
      (∀ e ∈ acc, e.2.2 = e.2.1.prod) →
      (∀ row ∈ flat, row.length = (acc.map (fun e => e.2.2)).sum) →
      ∀ s ∈ decode acc flat, ∀ r ∈ s.data, r.length = slotWidth s := by
  intro acc
  induction acc with
  | nil => intro flat _ _ s hs; simp [decode] at hs
  | cons e rest ih =>
      intro flat hcoh hrow s hs
      simp only [decode, List.mem_cons] at hs
      rcases hs with hs | hs
      · subst hs
        intro r hr
        rcases List.mem_map.1 hr with ⟨row, hrowm, rfl⟩
        have hlen : row.length = e.2.2 + (rest.map (fun x => x.2.2)).sum := by
          rw [hrow row hrowm]; simp
        have hw : e.2.2 = e.2.1.prod := hcoh e (List.mem_cons_self e rest)
        simp only [slotWidth, List.length_take, hlen]
        rw [Nat.min_eq_left (Nat.le_add_right _ _)]
        exact hw
      · refine ih (flat.map (fun r => r.drop e.2.2))
          (fun x hx => hcoh x (List.mem_cons_of_mem e hx)) ?_ s hs
        intro row hrowm
        rcases List.mem_map.1 hrowm with ⟨row0, hrow0, rfl⟩
        rw [List.length_drop, hrow row0 hrow0]
        simp

theorem accessOf_sig {α : Type} (θ : ParamSet α) :
    (accessOf θ).map (fun e => (e.1, e.2.1)) = slotSig θ := by
  simp [accessOf, slotSig, List.map_map, Function.comp]

theorem accessOf_coherent {α : Type} (θ : ParamSet α) :
    ∀ e ∈ accessOf θ, e.2.2 = e.2.1.prod := by
  intro e he
  rcases List.mem_map.1 he with ⟨s, _, rfl⟩
  rfl

theorem accessOf_width_sum {α : Type} (θ : ParamSet α) :
    ((accessOf θ).map (fun e => e.2.2)).sum = sumWidths θ := by
  rw [accessOf, List.map_map]
  rfl

/-- Decoding any `m × n_params` matrix through a particle set's layout
descriptor yields a particle set with the same slots and shapes, well-formed
with leading dimension `m`. -/
theorem decode_wf {α : Type} {θref : ParamSet α} {flat : Mat α} {m : ℕ}
    (hflat : IsMat m (sumWidths θref) flat) :
    slotSig (decode (accessOf θref) flat) = slotSig θref ∧
      WF m (decode (accessOf θref) flat) := by
  refine ⟨by rw [decode_sig, accessOf_sig], ?_⟩
  intro s hs
  refine ⟨by rw [decode_data_length _ _ s hs, hflat.1], ?_⟩
  refine decode_row_widths _ _ (accessOf_coherent θref) ?_ s hs
  intro row hrow
  rw [hflat.2 row hrow, accessOf_width_sum]

/-- Encoding a nonempty well-formed particle set yields an
`n × n_params` matrix. -/
theorem encodeMat_isMat {α : Type} {n : ℕ} {θ : ParamSet α}
    (hθ : WF n θ) (hne : θ ≠ []) : IsMat n (sumWidths θ) (encodeMat θ) := by
  have hn : nRows θ = n := by
    rcases θ with _ | ⟨s, rest⟩
    · exact absurd rfl hne
    · exact (hθ s (List.mem_cons_self s rest)).1
  constructor
  · simp [encodeMat, hn]
  · intro row hrow
    rcases List.mem_map.1 hrow with ⟨i, hi, rfl⟩
    have hilt : i < n := by
      rw [← hn]; simpa using List.mem_range.1 (hn ▸ hi)
    rw [List.length_flatten, List.map_map]
    show (θ.map (fun s => (s.data.getD i []).length)).sum = sumWidths θ
    unfold sumWidths
    refine congrArg List.sum (List.map_congr_left ?_)
    intro s hs
    obtain ⟨hlen, hwidths⟩ := hθ s hs
    have hi' : i < s.data.length := by rw [hlen]; exact hilt
    rw [List.getD_eq_getElem?_getD, List.getElem?_eq_getElem hi']
    exact hwidths _ (List.getElem_mem hi')

/-- C9: both operations that rewrite θ preserve the particle-set invariant —
`update_particles` returns a particle set with the same slots and per-slot
shapes whose every slot again has leading dimension `n_particles`, and the
decode step of `shuffle` yields, from any worker's received block of
`p` rows, a particle set with that worker's slots and shapes and leading
dimension `p` throughout. -/
theorem particle_set_invariant (kg : Mat ℝ → Mat ℝ × Mat ℝ)
    (gd : Mat ℝ → Mat ℝ) (θ : ParamSet ℝ) (grads_array : Mat ℝ) (n : ℕ)
    (hk : KernelShapes kg) (hgd : StepShapes gd) (hθ : WF n θ) (hne : θ ≠ [])
    (hg : IsMat n (sumWidths θ) grads_array)
    (θf : ParamSet ℝ) (p : ℕ) (block : Mat ℝ)
    (hb : IsMat p (sumWidths θf) block) :
    (slotSig (update_particles kg gd θ grads_array) = slotSig θ ∧
        WF n (update_particles kg gd θ grads_array)) ∧
      (slotSig (shuffleWorker θf block) = slotSig θf ∧
        WF p (shuffleWorker θf block)) := by
  refine ⟨?_, decode_wf hb⟩
  have hθa := encodeMat_isMat hθ hne
  have hphi := compute_phi_isMat hk hθa hg
  have hphic := matSmul_isMat
    (clipScale (frobNorm (compute_phi kg (encodeMat θ) grads_array))) hphi
  have hinc := hgd _ _ _ hphic
  have hflat := matAdd_isMat hθa hinc
  exact decode_wf hflat

/-- Witness block of two rows for the shuffle half of the invariant. -/
def blockW : Mat ℝ := [[5], [6]]

/-- C9 witness: the invariant instantiated on the witness particle set, the
witness kernel and the identity step strategy, with a two-row shuffle
block. -/
theorem particle_set_invariant_witness :
    (slotSig (update_particles onesKernel id thetaW gradsW) = slotSig thetaW ∧
        WF 1 (update_particles onesKernel id thetaW gradsW)) ∧
      (slotSig (shuffleWorker thetaW blockW) = slotSig thetaW ∧
        WF 2 (shuffleWorker thetaW blockW)) :=
  particle_set_invariant onesKernel id thetaW gradsW 1 onesKernel_shapes
    (fun _ _ _ h => h)
    (by intro s hs; simp [thetaW] at hs; simp [hs, slotWidth])
    (by simp [thetaW])
    (by constructor <;> simp [gradsW, sumWidths, thetaW, slotWidth])
    thetaW 2 blockW
    (by constructor <;> simp [blockW, sumWidths, thetaW, slotWidth])

end Stein
